import Mathlib

/-!
Verification of the go-quai positional-index / big-bits slice.

Shallow embedding of `common/big.go` and the rawdb accessors file
(`ReadTxLookupEntry`, `WriteTxLookupEntries`, `DeleteBloombits`,
`ReadTransaction`, ...).  Machine bytes are modelled as `List Nat`
(each entry a byte value), `big.Int` values that are provably
non-negative as `Nat`, and the shared `big.Int` globals monitored by
`SanityCheck` as `Int` (the type of `big.Int`).  External collaborators
(the key-value store, the header/body lookups, the protobuf decoder and
the `mathutil.BinaryLog` routine) enter as explicit parameters or, where
the spec fixes their contract, as definitions marked
`Modelled from the spec`.
-/

namespace Quai

/-! ## Big-bits arithmetic (`common/big.go`) -/

/-- Fuel-bounded floor of the base-2 logarithm; with fuel `≥ n` it equals
`Nat.log2 n`.  This is the characteristic returned by
`mathutil.BinaryLog` (the `c` with `2^c ≤ n < 2^(c+1)` for `n ≥ 1`). -/
def log2floorAux : Nat → Nat → Nat
  | 0, _ => 0
  | fuel + 1, n => if n ≤ 1 then 0 else log2floorAux fuel (n / 2) + 1

/-- Floor of the base-2 logarithm, kernel-computable. -/
def log2floor (n : Nat) : Nat := log2floorAux n n

/-- The `MantBits` constant of `common/big.go`. -/
def MantBits : Nat := 64

/-- One fixed-point mantissa-extraction loop: `z` is a fixed-point number
with `prec` fractional bits in `[1, 2)`; each step squares it and emits
one bit of the fractional part of `log2`.  Runs `fuel` steps. -/
def mantLoop (prec : Nat) : Nat → Nat → Nat → Nat
  | 0, _, acc => acc
  | fuel + 1, z, acc =>
    if 2 ^ (prec + 1) ≤ z * z / 2 ^ prec then
      mantLoop prec fuel (z * z / 2 ^ prec / 2) (2 * acc + 1)
    else
      mantLoop prec fuel (z * z / 2 ^ prec) (2 * acc)

/-- Modelled from the spec: `mathutil.BinaryLog(x, prec)` (external
library, not in the sources) returns `(c, m)` where `c` is the integer
base-2 logarithm of `x` and `m` is a `prec`-bit fractional mantissa with
`x ≈ 2^(c + m/2^prec)`; the mantissa comes from the standard
square-and-compare loop. -/
def binaryLog (x prec : Nat) : Nat × Nat :=
  (log2floor x, mantLoop prec prec (x * 2 ^ prec / 2 ^ log2floor x) 0)

/-- The canonical value of the shared constant `Big2e64`. -/
def Big2e64 : Nat := 2 ^ 64

/-- The canonical value of the shared constant `Big2e256`. -/
def Big2e256 : Nat := 2 ^ 256

/-- `BigBitsToBits` from `common/big.go`: `Div(original, Big2e64)`. -/
def BigBitsToBits (original : Nat) : Nat := original / Big2e64

/-- `BitsToBigBits` from `common/big.go`:
`c, m := mathutil.BinaryLog(original, 64); c * 2^64 + m`. -/
def BitsToBigBits (original : Nat) : Nat :=
  (binaryLog original 64).1 * 2 ^ 64 + (binaryLog original 64).2

/-- `LogBig` from `common/big.go`: identical computation on a defensive
copy, with the literal `64` spelled `MantBits`. -/
def LogBig (diff : Nat) : Nat :=
  (binaryLog diff MantBits).1 * 2 ^ MantBits + (binaryLog diff MantBits).2

/-- `EntropyBigBitsToDifficultyBits` from `common/big.go`:
`Big2e256 / 2^(bigBits / Big2e64)`. -/
def EntropyBigBitsToDifficultyBits (bigBits : Nat) : Nat :=
  Big2e256 / 2 ^ (bigBits / Big2e64)

/-! ## The integrity monitor (`SanityCheck` in `common/big.go`)

The monitored state is the tuple of shared `big.Int` globals; other code
may mutate them (that is the corruption being detected), so they are
passed per check cycle.  The local copies captured at the start of
`SanityCheck` are never written by the program, hence appear as the
fixed values below. -/

/-- The shared process-wide constants of `common/big.go`, as mutable
state observed by one `SanityCheck` cycle. -/
structure SharedConstants where
  big0 : Int
  big1 : Int
  big2 : Int
  big3 : Int
  big8 : Int
  big32 : Int
  big256 : Int
  big257 : Int
  big2e256 : Int
  big2e64 : Int
deriving DecidableEq

/-- The canonical startup values of the shared constants. -/
def canonicalConstants : SharedConstants :=
  ⟨0, 1, 2, 3, 8, 32, 256, 257, 2 ^ 256, 2 ^ 64⟩

/-- The local copies `big0 .. big2e64` captured by `SanityCheck` before
spawning its loop (built by the same constructor expressions). -/
def sanityLocalCopies : SharedConstants :=
  ⟨0, 1, 2, 3, 8, 32, 256, 257, 2 ^ 256, 2 ^ 64⟩

/-- One check of the `SanityCheck` loop body.  Note the asymmetry taken
from the source: the first eight comparisons are local copy versus shared
global, but `big2e256` and `big2e64` are compared against freshly
recomputed values (`new(big.Int).Exp(...)`), not against the shared
`Big2e256`/`Big2e64`. -/
def sanityMismatch (s : SharedConstants) : Bool :=
  (sanityLocalCopies.big0 != s.big0) ||
  (sanityLocalCopies.big1 != s.big1) ||
  (sanityLocalCopies.big2 != s.big2) ||
  (sanityLocalCopies.big3 != s.big3) ||
  (sanityLocalCopies.big8 != s.big8) ||
  (sanityLocalCopies.big32 != s.big32) ||
  (sanityLocalCopies.big256 != s.big256) ||
  (sanityLocalCopies.big257 != s.big257) ||
  (sanityLocalCopies.big2e256 != (2 : Int) ^ 256) ||
  (sanityLocalCopies.big2e64 != (2 : Int) ^ 64)

/-- The `SanityCheck` goroutine over a finite prefix of its run: one
entry of `trace` is the state of the shared constants seen at one wake-up
of the loop.  Each mismatching cycle performs one send on `quitCh`; the
loop body contains no `break` or `return`, so every cycle of the trace is
processed. -/
def sanityRunWrites : List SharedConstants → Nat
  | [] => 0
  | s :: rest => (if sanityMismatch s then 1 else 0) + sanityRunWrites rest

/-- A corrupted state: `Big0` overwritten with 1, everything else
canonical. -/
def corruptedConstants : SharedConstants :=
  ⟨1, 1, 2, 3, 8, 32, 256, 257, 2 ^ 256, 2 ^ 64⟩

/-! ## The versioned transaction-lookup codec (rawdb accessors)

Bytes are `List Nat`.  The ordered key-value store and the external
lookups (`ReadHeaderNumber`, `proto.Unmarshal` of the legacy entry) are
collaborators outside this slice and enter as fields of `LookupEnv`. -/

/-- `common.HashLength`. -/
def HashLength : Nat := 32

/-- The zero value `common.Hash{}`: 32 zero bytes. -/
def zeroHash : List Nat := List.replicate HashLength 0

/-- Modelled from the spec: the transaction-lookup namespace byte of the
schema file (not in this slice); `txLookupKey` is namespace ++ hash. -/
def txLookupNs : List Nat := [108]

/-- Modelled from the spec: `txLookupKey(hash)` = namespace prefix
concatenated with the hash. -/
def txLookupKey (hash : List Nat) : List Nat := txLookupNs ++ hash

/-- Fuel-bounded minimal big-endian encoding; with fuel `≥ n` this is
`big.Int.Bytes()` of `n`: empty for 0, no leading zero byte otherwise. -/
def natToBytesAux : Nat → Nat → List Nat
  | 0, _ => []
  | fuel + 1, n => if n = 0 then [] else natToBytesAux fuel (n / 256) ++ [n % 256]

/-- `big.Int.Bytes()`: minimal big-endian bytes of `n`. -/
def natToBytes (n : Nat) : List Nat := natToBytesAux n n

/-- `big.Int.SetBytes(data)`: big-endian interpretation of a byte list. -/
def bytesToNat (data : List Nat) : Nat :=
  data.foldl (fun acc b => acc * 256 + b) 0

/-- The `numberBytes` written by `WriteTxLookupEntries`:
`new(big.Int).SetUint64(number).Bytes()`. -/
def encodeBlockNumber (number : Nat) : List Nat := natToBytes number

/-- `WriteTxLookupEntries(db, number, hashes)` as the list of
`(key, value)` puts it issues, one per hash, all sharing the same
encoded number. -/
def WriteTxLookupEntries (number : Nat) (hashes : List (List Nat)) :
    List (List Nat × List Nat) :=
  hashes.map (fun h => (txLookupKey h, encodeBlockNumber number))

/-- External collaborators of `ReadTxLookupEntry`: the store (`getData`
is `db.Get` with its error discarded, `[]` for absent), the header-number
lookup (`ReadHeaderNumber` after `BytesToHash`), and the legacy protobuf
decoder (`proto.Unmarshal` + `ProtoDecode`, `none` on unmarshal error). -/
structure LookupEnv where
  getData : List Nat → List Nat
  headerNumber : List Nat → Option Nat
  protoDecode : List Nat → Option Nat

/-- The decode core of `ReadTxLookupEntry` on the raw stored bytes.
Returns the optional block number and the number of error-log events. -/
def readTxLookupData (env : LookupEnv) (data : List Nat) : Option Nat × Nat :=
  if data.length = 0 then (none, 0)
  else if data.length < HashLength then (some (bytesToNat data % 2 ^ 64), 0)
  else if data.length = HashLength then (env.headerNumber data, 0)
  else
    match env.protoDecode data with
    | none => (none, 1)
    | some n => (some n, 0)

/-- `ReadTxLookupEntry(db, hash)`: fetch the stored bytes under
`txLookupKey(hash)` and decode them by byte-length discrimination. -/
def ReadTxLookupEntry (env : LookupEnv) (hash : List Nat) : Option Nat × Nat :=
  readTxLookupData env (env.getData (txLookupKey hash))

/-- A transaction, reduced to the fields `ReadTransaction` consults:
its hash, plus an opaque payload showing a transaction is more than its
hash. -/
structure Transaction where
  txHash : List Nat
  payload : Nat
deriving DecidableEq

/-- A work object, reduced to `wo.Body().Transactions()`. -/
structure WorkObject where
  transactions : List Transaction
deriving DecidableEq

/-- External collaborators of `ReadTransaction`: the lookup environment
plus `ReadCanonicalHash` (zero hash for absent) and `ReadWorkObject`. -/
structure ChainEnv where
  lookup : LookupEnv
  canonicalHash : Nat → List Nat
  workObject : Nat → List Nat → Option WorkObject

/-- The indexed scan of the block body in `ReadTransaction`: first
transaction whose hash matches, with its index. -/
def findTxLoop (hash : List Nat) : List Transaction → Nat → Option (Transaction × Nat)
  | [], _ => none
  | tx :: rest, i =>
    if tx.txHash = hash then some (tx, i) else findTxLoop hash rest (i + 1)

/-- `ReadTransaction(db, hash)`: lookup entry → canonical hash → work
object → body scan.  First component is the returned quadruple
(`nil` transaction as `none`, `common.Hash{}` as `zeroHash`); second is
the number of error-log events. -/
def ReadTransaction (env : ChainEnv) (hash : List Nat) :
    (Option Transaction × List Nat × Nat × Nat) × Nat :=
  match (ReadTxLookupEntry env.lookup hash).1 with
  | none => ((none, zeroHash, 0, 0), (ReadTxLookupEntry env.lookup hash).2)
  | some blockNumber =>
    if env.canonicalHash blockNumber = zeroHash then
      ((none, zeroHash, 0, 0), (ReadTxLookupEntry env.lookup hash).2)
    else
      match env.workObject blockNumber (env.canonicalHash blockNumber) with
      | none => ((none, zeroHash, 0, 0), (ReadTxLookupEntry env.lookup hash).2 + 1)
      | some wo =>
        match findTxLoop hash wo.transactions 0 with
        | some txi =>
          ((some txi.1, env.canonicalHash blockNumber, blockNumber, txi.2),
            (ReadTxLookupEntry env.lookup hash).2)
        | none => ((none, zeroHash, 0, 0), (ReadTxLookupEntry env.lookup hash).2 + 1)

/-- A fixed test hash. -/
def hashW : List Nat := List.replicate 32 1

/-- Environment whose store holds the encoding of block number 0 under
every key. -/
def envDecodeZero : LookupEnv :=
  ⟨fun _ => encodeBlockNumber 0, fun _ => none, fun _ => none⟩

/-- Environment whose store holds the encoding of block number 5 under
every key. -/
def envRoundtrip : LookupEnv :=
  ⟨fun _ => encodeBlockNumber 5, fun _ => none, fun _ => none⟩

/-- Environment whose store is empty. -/
def envEmpty : LookupEnv := ⟨fun _ => [], fun _ => none, fun _ => none⟩

/-- Chain environment exercising the silent canonical-hash miss: the
lookup entry resolves to block 5 but the canonical hash of every height
is absent (zero). -/
def chainEnvSilent : ChainEnv :=
  ⟨⟨fun _ => [5], fun _ => none, fun _ => none⟩,
    fun _ => zeroHash, fun _ _ => none⟩

/-! ## Byte-lexicographic order, bloom keys, and the store writes -/

/-- Comparison of two byte values, as `bytes.Compare` does per byte. -/
def byteCmp (a b : Nat) : Ordering :=
  if a < b then Ordering.lt else if b < a then Ordering.gt else Ordering.eq

/-- `bytes.Compare`: lexicographic order on byte strings, a strict
prefix ordering below its extensions. -/
def bytesCompare : List Nat → List Nat → Ordering
  | [], [] => Ordering.eq
  | [], _ :: _ => Ordering.lt
  | _ :: _, [] => Ordering.gt
  | a :: xs, b :: ys =>
    match byteCmp a b with
    | Ordering.eq => bytesCompare xs ys
    | o => o

/-- Fixed-width big-endian encoding of `n` on `w` bytes
(`binary.BigEndian.PutUint16/PutUint64`). -/
def beBytes : Nat → Nat → List Nat
  | 0, _ => []
  | w + 1, n => beBytes w (n / 256) ++ [n % 256]

/-- Modelled from the spec: the bloom-bits namespace byte of the schema
file (not in this slice). -/
def bloomBitsNs : List Nat := [66]

/-- Modelled from the spec: `BloomBitsKeyLength` = namespace byte +
2-byte bit index + 8-byte section + 32-byte hash. -/
def BloomBitsKeyLength : Nat := 43

/-- Modelled from the spec: `bloomBitsKey(bit, section, hash)` =
namespace prefix ++ big-endian bit index ++ big-endian section ++ hash,
so that keys of one bit with increasing sections sort contiguously. -/
def bloomBitsKey (bit sec : Nat) (hash : List Nat) : List Nat :=
  bloomBitsNs ++ beBytes 2 bit ++ beBytes 8 sec ++ hash

/-- Outcome of a store-write operation of this core: either it returns,
or it called `Fatal` (log at fatal severity and terminate). -/
inductive WriteOutcome where
  | ok
  | fatal
deriving DecidableEq

/-- Whether an outcome is the fatal termination. -/
def WriteOutcome.isFatal : WriteOutcome → Bool
  | WriteOutcome.ok => false
  | WriteOutcome.fatal => true

/-- The store's failure behaviour: whether `db.Put` / `db.Delete`
return a non-nil error for a given key (and value). -/
structure KVErr where
  putErr : List Nat → List Nat → Bool
  delErr : List Nat → Bool

/-- `writeTxLookupEntry`: one put; a non-nil error is fatal. -/
def writeTxLookupEntry (db : KVErr) (hash numberBytes : List Nat) : WriteOutcome :=
  if db.putErr (txLookupKey hash) numberBytes then WriteOutcome.fatal
  else WriteOutcome.ok

/-- `DeleteTxLookupEntry`: one delete; a non-nil error is fatal. -/
def DeleteTxLookupEntry (db : KVErr) (hash : List Nat) : WriteOutcome :=
  if db.delErr (txLookupKey hash) then WriteOutcome.fatal else WriteOutcome.ok

/-- `WriteBloomBits`: one put; a non-nil error is fatal. -/
def WriteBloomBits (db : KVErr) (bit sec : Nat) (head bits : List Nat) :
    WriteOutcome :=
  if db.putErr (bloomBitsKey bit sec head) bits then WriteOutcome.fatal
  else WriteOutcome.ok

/-- The iterator loop of `DeleteBloombits` over the iterator's key
sequence: break at the first key `≥ endKey` (`bytes.Compare ≥ 0`),
skip keys of the wrong length, otherwise delete.  Conditions are stated
positively; the else-branch of the first test is Go's `break`. -/
def deleteLoop (endKey : List Nat) : List (List Nat) → List (List Nat)
  | [] => []
  | k :: ks =>
    if bytesCompare k endKey = Ordering.lt then
      if k.length = BloomBitsKeyLength then k :: deleteLoop endKey ks
      else deleteLoop endKey ks
    else []

/-- What one `DeleteBloombits` call did: the keys passed to `db.Delete`,
the results those deletes returned (discarded by the source: the call
`db.Delete(it.Key())` ignores its error), and the function's outcome. -/
structure DeleteBloombitsResult where
  deleted : List (List Nat)
  deleteResults : List Bool
  outcome : WriteOutcome
deriving DecidableEq

/-- `DeleteBloombits(db, bit, from, to)`: iterate from
`bloomBitsKey(bit, from, {})` (the caller guarantees `it` is that
iterator sequence), delete in `[from, to)`, and fail fatally exactly when
the iterator reports an error afterwards.  The per-key delete results do
not influence the outcome, mirroring the discarded return value. -/
def DeleteBloombits (db : KVErr) (bit fromSec toSec : Nat)
    (it : List (List Nat)) (itErr : Bool) : DeleteBloombitsResult :=
  ⟨deleteLoop (bloomBitsKey bit toSec zeroHash) it,
    (deleteLoop (bloomBitsKey bit toSec zeroHash) it).map (fun k => db.delErr k),
    if itErr then WriteOutcome.fatal else WriteOutcome.ok⟩

/-- A store in which every put and delete fails. -/
def dbBoom : KVErr := ⟨fun _ _ => true, fun _ => true⟩

/-- Bloom key for bit 0 at a given section with the zero hash. -/
def wkey (sec : Nat) : List Nat := bloomBitsKey 0 sec zeroHash

/-- A key of foreign length (44 bytes) sorting between the section-3 and
section-4 keys of bit 0. -/
def foreignKey : List Nat := bloomBitsKey 0 3 zeroHash ++ [0]

/-- Store contents for the range-deletion scenario of the spec: bit-0
keys at sections 1..5 plus one foreign-length key. -/
def storeW : List (List Nat) :=
  [wkey 1, wkey 2, wkey 3, foreignKey, wkey 4, wkey 5]

/-- The iterator sequence seeked to `wkey 2`: all store keys `≥ wkey 2`
in ascending order. -/
def itW : List (List Nat) := [wkey 2, wkey 3, foreignKey, wkey 4, wkey 5]

/-! ## Helper lemmas for the arithmetic part -/

theorem mantLoop_lt (prec : Nat) :
    ∀ (fuel z acc : Nat), mantLoop prec fuel z acc < (acc + 1) * 2 ^ fuel := by
  intro fuel
  induction fuel with
  | zero =>
    intro z acc
    simp [mantLoop]
  | succ f ih =>
    intro z acc
    rw [mantLoop]
    have h2 : (acc + 1) * 2 ^ (f + 1) = (2 * acc + 1 + 1) * 2 ^ f := by ring
    split
    · have := ih (z * z / 2 ^ prec / 2) (2 * acc + 1)
      omega
    · have := ih (z * z / 2 ^ prec) (2 * acc)
      have h3 : (acc + 1) * 2 ^ (f + 1) = (2 * acc + 2) * 2 ^ f := by ring
      have hle : (2 * acc + 1) * 2 ^ f ≤ (2 * acc + 2) * 2 ^ f :=
        Nat.mul_le_mul_right _ (by omega)
      omega

theorem binaryLog_mant_lt (x : Nat) : (binaryLog x 64).2 < 2 ^ 64 := by
  have h := mantLoop_lt 64 64 (x * 2 ^ 64 / 2 ^ log2floor x) 0
  simpa [binaryLog] using h

theorem log2floorAux_eq_log2 :
    ∀ (fuel n : Nat), n ≤ fuel → log2floorAux fuel n = Nat.log2 n := by
  intro fuel
  induction fuel with
  | zero =>
    intro n hn
    have hn0 : n = 0 := by omega
    subst hn0
    simp [log2floorAux, Nat.log2]
  | succ f ih =>
    intro n hn
    by_cases h1 : n ≤ 1
    · rw [log2floorAux, if_pos h1, Nat.log2]
      rw [if_neg (by omega)]
    · rw [log2floorAux, if_neg h1, ih (n / 2) (by omega)]
      conv_rhs => rw [Nat.log2]
      rw [if_pos (by omega)]

theorem log2floor_eq_log2 (n : Nat) : log2floor n = Nat.log2 n :=
  log2floorAux_eq_log2 n n (Nat.le_refl n)

/-! ## Claim theorems: arithmetic -/

/-- Claim C5: for every `x ≥ 1`, `BigBitsToBits (BitsToBigBits x)` is the
floor of the base-2 logarithm of `x`; `BitsToBigBits` produces
`c * 2^64 + m` with `m < 2^64`, and `BigBitsToBits` recovers `c` by
dividing by `2^64`. -/
theorem c5_roundtrip_log2 (x : Nat) (hx : 1 ≤ x) :
    BigBitsToBits (BitsToBigBits x) = Nat.log2 x ∧
    (binaryLog x 64).1 = Nat.log2 x ∧
    (binaryLog x 64).2 < 2 ^ 64 := by
  have hm := binaryLog_mant_lt x
  have hc : (binaryLog x 64).1 = Nat.log2 x := by
    simpa [binaryLog] using log2floor_eq_log2 x
  refine ⟨?_, hc, hm⟩
  show (BitsToBigBits x) / Big2e64 = Nat.log2 x
  rw [BitsToBigBits, hc, Big2e64, Nat.add_comm,
    Nat.add_mul_div_right _ _ (by positivity), Nat.div_eq_of_lt hm,
    Nat.zero_add]

/-- Witness for C5 at `x = 5`. -/
theorem c5_roundtrip_log2_witness :
    BigBitsToBits (BitsToBigBits 5) = Nat.log2 5 ∧
    (binaryLog 5 64).1 = Nat.log2 5 ∧
    (binaryLog 5 64).2 < 2 ^ 64 :=
  c5_roundtrip_log2 5 (by decide)

set_option maxRecDepth 8000

/-- Claim C6: `EntropyBigBitsToDifficultyBits (BitsToBigBits 256)` equals
exactly `2^248`: `log2 256 = 8` with zero mantissa, the exponent `8` is
recovered by dividing by `2^64`, and `2^256 / 2^8 = 2^248`. -/
theorem c6_entropy_of_256 :
    (binaryLog 256 64).2 = 0 ∧
    EntropyBigBitsToDifficultyBits (BitsToBigBits 256) = 2 ^ 248 := by
  constructor
  · decide
  · decide

/-- Claim C9: `LogBig` computes the same transform as `BitsToBigBits` on
every positive input (the source bodies differ only in the defensive copy
of the argument and in writing `64` as `MantBits`). -/
theorem c9_logbig_eq_bitstobigbits (x : Nat) (hx : 1 ≤ x) :
    LogBig x = BitsToBigBits x := rfl

/-- Witness for C9 at `x = 7`. -/
theorem c9_logbig_eq_bitstobigbits_witness : LogBig 7 = BitsToBigBits 7 :=
  c9_logbig_eq_bitstobigbits 7 (by decide)

/-! ## Claim theorems: integrity monitor -/

theorem sanityMismatch_canonical : sanityMismatch canonicalConstants = false := by
  simp [sanityMismatch, sanityLocalCopies, canonicalConstants]

theorem sanityMismatch_corrupted : sanityMismatch corruptedConstants = true := by
  norm_num [sanityMismatch, sanityLocalCopies, corruptedConstants]

/-- Claim C10: the monitor never signals a false abort: on a run in which
the shared constants equal their canonical values at every check cycle,
`SanityCheck` performs no write to the quit channel. -/
theorem c10_no_false_abort (trace : List SharedConstants)
    (h : ∀ s ∈ trace, s = canonicalConstants) :
    sanityRunWrites trace = 0 := by
  induction trace with
  | nil => rfl
  | cons s rest ih =>
    have hs : s = canonicalConstants := h s (by simp)
    rw [sanityRunWrites, hs, sanityMismatch_canonical, if_neg (by simp),
      ih (fun t ht => h t (by simp [ht]))]

/-- Witness for C10 on a one-cycle canonical trace. -/
theorem c10_no_false_abort_witness :
    sanityRunWrites [canonicalConstants] = 0 :=
  c10_no_false_abort [canonicalConstants]
    (by intro s hs; simpa using hs)

/-- Counterexample to claim C4 as stated: the loop body of `SanityCheck`
contains no `break` or `return` after the send, so a mismatch persisting
over two check cycles produces two writes to the quit channel, not
exactly one followed by loop termination. -/
theorem c4_second_write_cex :
    sanityRunWrites [corruptedConstants, corruptedConstants] = 2 := by
  rw [sanityRunWrites, sanityRunWrites, sanityRunWrites,
    sanityMismatch_corrupted]
  simp

/-- Claim C4 amended: on every check cycle whose observed state
mismatches, the monitor performs exactly one write to the quit channel;
the monitoring loop never terminates, so the total number of writes over
a run equals the number of mismatching cycles. -/
theorem c4_one_write_per_mismatch_cycle (trace : List SharedConstants) :
    sanityRunWrites trace = trace.countP (fun s => sanityMismatch s) := by
  induction trace with
  | nil => rfl
  | cons s rest ih =>
    rw [sanityRunWrites, ih, List.countP_cons]
    cases h : sanityMismatch s
    · simp [h]
    · simp [h]
      omega

/-! ## Helper lemmas for the codec -/

theorem bytesToNat_append (xs : List Nat) (b : Nat) :
    bytesToNat (xs ++ [b]) = bytesToNat xs * 256 + b := by
  simp [bytesToNat, List.foldl_append]

theorem natToBytesAux_roundtrip :
    ∀ (fuel n : Nat), n ≤ fuel → bytesToNat (natToBytesAux fuel n) = n := by
  intro fuel
  induction fuel with
  | zero =>
    intro n hn
    have h0 : n = 0 := by omega
    subst h0
    rfl
  | succ f ih =>
    intro n hn
    by_cases h0 : n = 0
    · subst h0
      simp [natToBytesAux, bytesToNat]
    · rw [natToBytesAux, if_neg h0, bytesToNat_append, ih (n / 256) (by omega)]
      omega

theorem natToBytes_roundtrip (n : Nat) : bytesToNat (natToBytes n) = n :=
  natToBytesAux_roundtrip n n (Nat.le_refl n)

theorem natToBytesAux_length :
    ∀ (fuel n k : Nat), n < 256 ^ k → (natToBytesAux fuel n).length ≤ k := by
  intro fuel
  induction fuel with
  | zero =>
    intro n k _
    simp [natToBytesAux]
  | succ f ih =>
    intro n k h
    by_cases h0 : n = 0
    · subst h0
      simp [natToBytesAux]
    · cases k with
      | zero =>
        simp at h
        omega
      | succ k' =>
        have hpow : (256 : Nat) ^ (k' + 1) = 256 ^ k' * 256 := by ring
        have hdiv : n / 256 < 256 ^ k' := by
          rw [Nat.div_lt_iff_lt_mul (by norm_num)]
          omega
        have hlen := ih (n / 256) k' hdiv
        rw [natToBytesAux, if_neg h0]
        simp only [List.length_append, List.length_cons, List.length_nil]
        omega

theorem natToBytes_length_le (n k : Nat) (h : n < 256 ^ k) :
    (natToBytes n).length ≤ k :=
  natToBytesAux_length n n k h

theorem natToBytes_ne_nil (n : Nat) (h : 1 ≤ n) : natToBytes n ≠ [] := by
  rw [natToBytes]
  cases n with
  | zero => omega
  | succ m => simp [natToBytesAux]

theorem ReadTxLookupEntry_some_logs (env : LookupEnv) (hash : List Nat)
    (n : Nat) (h : (ReadTxLookupEntry env hash).1 = some n) :
    (ReadTxLookupEntry env hash).2 = 0 := by
  rw [ReadTxLookupEntry, readTxLookupData] at h ⊢
  split_ifs at h ⊢ <;>
    first
      | rfl
      | (cases hp : env.protoDecode (env.getData (txLookupKey hash)) with
          | none => rw [hp] at h; simp at h
          | some m => rfl)

/-! ## Claim theorems: the lookup codec -/

/-- Counterexample to claim C1 as stated: for block number 0 the stored
value written by `WriteTxLookupEntries` is `big.Int.Bytes()` of 0, the
empty byte string, which `ReadTxLookupEntry` reads back as an absent
entry (`nil`), not as the number 0. -/
theorem c1_roundtrip_zero_cex :
    (ReadTxLookupEntry envDecodeZero hashW).1 ≠ some 0 := by decide

/-- Claim C1 amended: for every nonzero block number `n < 2^64`, decoding
the stored value written by `WriteTxLookupEntries` (the minimal
big-endian bytes of `n`) with `ReadTxLookupEntry` yields `n`; at `n = 0`
the stored value is empty and decodes as absent. -/
theorem c1_roundtrip_amended (env : LookupEnv) (hash : List Nat) (n : Nat)
    (h1 : 1 ≤ n) (h2 : n < 2 ^ 64)
    (hstored : env.getData (txLookupKey hash) = encodeBlockNumber n) :
    (ReadTxLookupEntry env hash).1 = some n ∧
    WriteTxLookupEntries n [hash] = [(txLookupKey hash, encodeBlockNumber n)] := by
  constructor
  · have hlen : (encodeBlockNumber n).length ≤ 8 := by
      apply natToBytes_length_le
      have hp : (256 : Nat) ^ 8 = 2 ^ 64 := by norm_num
      omega
    have hne : ¬ (encodeBlockNumber n).length = 0 := by
      have h := natToBytes_ne_nil n h1
      simpa [encodeBlockNumber, List.length_eq_zero] using h
    rw [ReadTxLookupEntry, hstored, readTxLookupData, if_neg hne,
      if_pos (by have h32 : HashLength = 32 := rfl; omega)]
    simp only [encodeBlockNumber, natToBytes_roundtrip, Option.some.injEq]
    omega
  · rfl

/-- Witness for the amended C1 at `n = 5`. -/
theorem c1_roundtrip_amended_witness :
    (ReadTxLookupEntry envRoundtrip hashW).1 = some 5 ∧
    WriteTxLookupEntries 5 [hashW] = [(txLookupKey hashW, encodeBlockNumber 5)] :=
  c1_roundtrip_amended envRoundtrip hashW 5 (by decide) (by decide) rfl

/-- Claim C2: `ReadTxLookupEntry` discriminates the stored record purely
by byte length: empty → absent; length < 32 → big-endian integer
(truncated to `uint64`); length = 32 → external header-number lookup;
longer → legacy protobuf decode, logging one error and returning absent
when that decode fails (it never crashes: the embedding is total). -/
theorem c2_length_discrimination (env : LookupEnv) (hash data : List Nat)
    (hd : env.getData (txLookupKey hash) = data) :
    (data.length = 0 → ReadTxLookupEntry env hash = (none, 0)) ∧
    (0 < data.length → data.length < HashLength →
      ReadTxLookupEntry env hash = (some (bytesToNat data % 2 ^ 64), 0)) ∧
    (data.length = HashLength →
      ReadTxLookupEntry env hash = (env.headerNumber data, 0)) ∧
    (HashLength < data.length → env.protoDecode data = none →
      ReadTxLookupEntry env hash = (none, 1)) ∧
    (∀ n, HashLength < data.length → env.protoDecode data = some n →
      ReadTxLookupEntry env hash = (some n, 0)) := by
  have h32 : HashLength = 32 := rfl
  rw [ReadTxLookupEntry, hd]
  refine ⟨?_, ?_, ?_, ?_, ?_⟩
  · intro h0
    rw [readTxLookupData, if_pos h0]
  · intro h0 h1
    rw [readTxLookupData, if_neg (by omega), if_pos h1]
  · intro h0
    rw [readTxLookupData, if_neg (by omega), if_neg (by omega), if_pos h0]
  · intro h0 hp
    rw [readTxLookupData, if_neg (by omega), if_neg (by omega),
      if_neg (by omega), hp]
  · intro n h0 hp
    rw [readTxLookupData, if_neg (by omega), if_neg (by omega),
      if_neg (by omega), hp]

/-- Witness for C2 on empty stored data. -/
theorem c2_length_discrimination_witness :
    ReadTxLookupEntry envEmpty hashW = (none, 0) :=
  (c2_length_discrimination envEmpty hashW [] rfl).1 rfl

/-- Claim C8: `ReadTransaction` returns the uniform not-found quadruple
(`nil`, zero hash, 0, 0) on every failure path; the absent-canonical-hash
path is silent (no log), while the missing-body and hash-not-in-body
paths each log one error; the embedding is a total function, so no path
panics. -/
theorem c8_not_found_paths (env : ChainEnv) (hash : List Nat) :
    ((ReadTxLookupEntry env.lookup hash).1 = none →
      ReadTransaction env hash =
        ((none, zeroHash, 0, 0), (ReadTxLookupEntry env.lookup hash).2)) ∧
    (∀ n, (ReadTxLookupEntry env.lookup hash).1 = some n →
      env.canonicalHash n = zeroHash →
      ReadTransaction env hash = ((none, zeroHash, 0, 0), 0)) ∧
    (∀ n, (ReadTxLookupEntry env.lookup hash).1 = some n →
      env.canonicalHash n ≠ zeroHash →
      env.workObject n (env.canonicalHash n) = none →
      ReadTransaction env hash = ((none, zeroHash, 0, 0), 1)) ∧
    (∀ n wo, (ReadTxLookupEntry env.lookup hash).1 = some n →
      env.canonicalHash n ≠ zeroHash →
      env.workObject n (env.canonicalHash n) = some wo →
      findTxLoop hash wo.transactions 0 = none →
      ReadTransaction env hash = ((none, zeroHash, 0, 0), 1)) := by
  refine ⟨?_, ?_, ?_, ?_⟩
  · intro hl
    rw [ReadTransaction, hl]
  · intro n hl hc
    have hlog := ReadTxLookupEntry_some_logs env.lookup hash n hl
    rw [ReadTransaction, hl]
    simp [hc, hlog]
  · intro n hl hc hw
    have hlog := ReadTxLookupEntry_some_logs env.lookup hash n hl
    rw [ReadTransaction, hl]
    simp [hc, hw, hlog]
  · intro n wo hl hc hw hf
    have hlog := ReadTxLookupEntry_some_logs env.lookup hash n hl
    rw [ReadTransaction, hl]
    simp [hc, hw, hf, hlog]

/-- Witness for C8 on the silent canonical-hash miss. -/
theorem c8_not_found_paths_witness :
    ReadTransaction chainEnvSilent hashW = ((none, zeroHash, 0, 0), 0) :=
  (c8_not_found_paths chainEnvSilent hashW).2.1 5 (by decide) rfl

/-! ## Helper lemmas for the byte-lexicographic order -/

theorem byteCmp_lt_iff {a b : Nat} : byteCmp a b = Ordering.lt ↔ a < b := by
  unfold byteCmp
  split_ifs <;> simp <;> omega

theorem byteCmp_gt_iff {a b : Nat} : byteCmp a b = Ordering.gt ↔ b < a := by
  unfold byteCmp
  split_ifs <;> simp <;> omega

theorem byteCmp_eq_iff {a b : Nat} : byteCmp a b = Ordering.eq ↔ a = b := by
  unfold byteCmp
  split_ifs <;> simp <;> omega

theorem byteCmp_self (a : Nat) : byteCmp a a = Ordering.eq :=
  byteCmp_eq_iff.mpr rfl

theorem bytesCompare_self (l : List Nat) : bytesCompare l l = Ordering.eq := by
  induction l with
  | nil => rfl
  | cons x xs ih =>
    simp only [bytesCompare, byteCmp_self]
    exact ih

theorem bytesCompare_append_block :
    ∀ (a b a2 b2 : List Nat), a.length = b.length →
      bytesCompare (a ++ a2) (b ++ b2) =
        (bytesCompare a b).then (bytesCompare a2 b2) := by
  intro a
  induction a with
  | nil =>
    intro b a2 b2 hlen
    have hb : b = [] := List.length_eq_zero.mp hlen.symm
    subst hb
    simp [bytesCompare, Ordering.then]
  | cons x xs ih =>
    intro b a2 b2 hlen
    cases b with
    | nil => simp at hlen
    | cons y ys =>
      simp only [List.cons_append, bytesCompare]
      cases hxy : byteCmp x y with
      | lt => rfl
      | eq => exact ih ys a2 b2 (by simpa using hlen)
      | gt => rfl

theorem bytesCompare_append_same (p a2 b2 : List Nat) :
    bytesCompare (p ++ a2) (p ++ b2) = bytesCompare a2 b2 := by
  rw [bytesCompare_append_block p p a2 b2 rfl, bytesCompare_self]
  rfl

theorem beBytes_length (w : Nat) : ∀ n, (beBytes w n).length = w := by
  induction w with
  | zero => intro n; rfl
  | succ v ih => intro n; simp [beBytes, ih]

theorem bytesCompare_single (a b : Nat) :
    bytesCompare [a] [b] = byteCmp a b := by
  cases hc : byteCmp a b <;> simp [bytesCompare, hc]

theorem beBytes_compare :
    ∀ (w s t : Nat), s < 256 ^ w → t < 256 ^ w →
      bytesCompare (beBytes w s) (beBytes w t) = byteCmp s t := by
  intro w
  induction w with
  | zero =>
    intro s t hs ht
    have hs0 : s = 0 := by simpa using hs
    have ht0 : t = 0 := by simpa using ht
    subst hs0; subst ht0
    rfl
  | succ v ih =>
    intro s t hs ht
    have hpow : (256 : Nat) ^ (v + 1) = 256 ^ v * 256 := by ring
    have hs2 : s / 256 < 256 ^ v := by
      rw [Nat.div_lt_iff_lt_mul (by norm_num)]
      omega
    have ht2 : t / 256 < 256 ^ v := by
      rw [Nat.div_lt_iff_lt_mul (by norm_num)]
      omega
    have e1 := Nat.div_add_mod s 256
    have e2 := Nat.div_add_mod t 256
    have m1 : s % 256 < 256 := Nat.mod_lt _ (by norm_num)
    have m2 : t % 256 < 256 := Nat.mod_lt _ (by norm_num)
    simp only [beBytes]
    rw [bytesCompare_append_block _ _ _ _ (by rw [beBytes_length, beBytes_length]),
      ih _ _ hs2 ht2, bytesCompare_single]
    rcases Nat.lt_trichotomy (s / 256) (t / 256) with h | h | h
    · rw [byteCmp_lt_iff.mpr h]
      exact (byteCmp_lt_iff.mpr (by omega)).symm
    · rw [byteCmp_eq_iff.mpr h]
      show byteCmp (s % 256) (t % 256) = byteCmp s t
      unfold byteCmp
      split_ifs <;> first | rfl | omega
    · rw [byteCmp_gt_iff.mpr h]
      exact (byteCmp_gt_iff.mpr (by omega)).symm

theorem bytesCompare_zeros_not_lt :
    ∀ (l : List Nat) (n : Nat), l.length = n →
      bytesCompare l (List.replicate n 0) ≠ Ordering.lt := by
  intro l
  induction l with
  | nil =>
    intro n hn
    have : n = 0 := by simpa using hn.symm
    subst this
    simp [bytesCompare]
  | cons x xs ih =>
    intro n hn
    cases n with
    | zero => simp at hn
    | succ m =>
      rw [List.replicate_succ]
      simp only [bytesCompare]
      cases hx : byteCmp x 0 with
      | lt => exact absurd (byteCmp_lt_iff.mp hx) (by omega)
      | eq => exact ih m (by simpa using hn)
      | gt => simp

theorem bytesCompare_zeroHash_not_lt (l : List Nat) (hl : l.length = 32) :
    bytesCompare l zeroHash ≠ Ordering.lt := by
  have h := bytesCompare_zeros_not_lt l 32 hl
  simpa [zeroHash, HashLength] using h

theorem bytesCompare_le_lt_trans :
    ∀ (a b c : List Nat), bytesCompare a b ≠ Ordering.gt →
      bytesCompare b c = Ordering.lt → bytesCompare a c = Ordering.lt := by
  intro a
  induction a with
  | nil =>
    intro b c hab hbc
    cases c with
    | nil =>
      cases b with
      | nil => simp [bytesCompare] at hbc
      | cons y ys => simp [bytesCompare] at hbc
    | cons z zs => simp [bytesCompare]
  | cons x xs ih =>
    intro b c hab hbc
    cases b with
    | nil => simp [bytesCompare] at hab
    | cons y ys =>
      cases c with
      | nil => simp [bytesCompare] at hbc
      | cons z zs =>
        simp only [bytesCompare] at hab hbc ⊢
        cases hxy : byteCmp x y with
        | gt => rw [hxy] at hab; simp at hab
        | lt =>
          have hxly : x < y := byteCmp_lt_iff.mp hxy
          cases hyz : byteCmp y z with
          | gt => rw [hyz] at hbc; simp at hbc
          | lt =>
            have : y < z := byteCmp_lt_iff.mp hyz
            rw [byteCmp_lt_iff.mpr (by omega)]
          | eq =>
            have : y = z := byteCmp_eq_iff.mp hyz
            rw [byteCmp_lt_iff.mpr (by omega)]
        | eq =>
          have hxey : x = y := byteCmp_eq_iff.mp hxy
          rw [hxy] at hab
          cases hyz : byteCmp y z with
          | gt => rw [hyz] at hbc; simp at hbc
          | lt =>
            have : y < z := byteCmp_lt_iff.mp hyz
            rw [byteCmp_lt_iff.mpr (by omega)]
          | eq =>
            have hyez : y = z := byteCmp_eq_iff.mp hyz
            rw [hyz] at hbc
            rw [byteCmp_eq_iff.mpr (by omega)]
            exact ih ys zs hab hbc

theorem deleteLoop_eq_filter (endKey : List Nat) :
    ∀ it : List (List Nat),
      it.Pairwise (fun a b => bytesCompare a b ≠ Ordering.gt) →
      deleteLoop endKey it =
        it.filter (fun k =>
          decide (bytesCompare k endKey = Ordering.lt) &&
          decide (k.length = BloomBitsKeyLength)) := by
  intro it
  induction it with
  | nil => intro _; rfl
  | cons k ks ih =>
    intro hp
    rw [List.pairwise_cons] at hp
    obtain ⟨hk, hks⟩ := hp
    by_cases hlt : bytesCompare k endKey = Ordering.lt
    · rw [deleteLoop, if_pos hlt]
      by_cases hlen : k.length = BloomBitsKeyLength
      · rw [if_pos hlen, ih hks,
          List.filter_cons_of_pos (by simp [hlt, hlen])]
      · rw [if_neg hlen, ih hks,
          List.filter_cons_of_neg (by simp [hlt, hlen])]
    · rw [deleteLoop, if_neg hlt,
        List.filter_cons_of_neg (by simp [hlt])]
      symm
      rw [List.filter_eq_nil_iff]
      intro x hx hcontra
      simp only [Bool.and_eq_true, decide_eq_true_eq] at hcontra
      exact hlt (bytesCompare_le_lt_trans k x endKey (hk x hx) hcontra.1)

theorem bloomBitsKey_length (bit sec : Nat) (h2 : List Nat)
    (hh : h2.length = 32) :
    (bloomBitsKey bit sec h2).length = BloomBitsKeyLength := by
  simp [bloomBitsKey, beBytes_length, bloomBitsNs, hh, BloomBitsKeyLength]

theorem bloomKey_cmp (bit s t : Nat) (h2 : List Nat)
    (hs : s < 2 ^ 64) (ht : t < 2 ^ 64) :
    bytesCompare (bloomBitsKey bit s h2) (bloomBitsKey bit t zeroHash) =
      (byteCmp s t).then (bytesCompare h2 zeroHash) := by
  have hp : (256 : Nat) ^ 8 = 2 ^ 64 := by norm_num
  have e1 : bloomBitsNs ++ beBytes 2 bit ++ beBytes 8 s ++ h2
      = (bloomBitsNs ++ beBytes 2 bit) ++ (beBytes 8 s ++ h2) := by
    simp [List.append_assoc]
  have e2 : bloomBitsNs ++ beBytes 2 bit ++ beBytes 8 t ++ zeroHash
      = (bloomBitsNs ++ beBytes 2 bit) ++ (beBytes 8 t ++ zeroHash) := by
    simp [List.append_assoc]
  rw [bloomBitsKey, bloomBitsKey, e1, e2, bytesCompare_append_same,
    bytesCompare_append_block _ _ _ _ (by rw [beBytes_length, beBytes_length]),
    beBytes_compare 8 s t (by omega) (by omega)]

theorem bloomKey_ge_start_iff (bit fromSec s : Nat) (h2 : List Nat)
    (hf : fromSec < 2 ^ 64) (hs : s < 2 ^ 64) (hh : h2.length = 32) :
    (bytesCompare (bloomBitsKey bit s h2) (bloomBitsKey bit fromSec zeroHash)
      ≠ Ordering.lt) ↔ fromSec ≤ s := by
  rw [bloomKey_cmp bit s fromSec h2 hs hf]
  rcases Nat.lt_trichotomy s fromSec with h | h | h
  · rw [byteCmp_lt_iff.mpr h]
    simp [Ordering.then]
    omega
  · subst h
    rw [byteCmp_self]
    simp only [Ordering.then]
    constructor
    · intro _; omega
    · intro _; exact bytesCompare_zeroHash_not_lt h2 hh
  · rw [byteCmp_gt_iff.mpr h]
    simp [Ordering.then]
    omega

theorem bloomKey_lt_end_iff (bit toSec s : Nat) (h2 : List Nat)
    (ht : toSec < 2 ^ 64) (hs : s < 2 ^ 64) (hh : h2.length = 32) :
    (bytesCompare (bloomBitsKey bit s h2) (bloomBitsKey bit toSec zeroHash)
      = Ordering.lt) ↔ s < toSec := by
  rw [bloomKey_cmp bit s toSec h2 hs ht]
  rcases Nat.lt_trichotomy s toSec with h | h | h
  · rw [byteCmp_lt_iff.mpr h]
    simp [Ordering.then]
    omega
  · subst h
    rw [byteCmp_self]
    simp only [Ordering.then]
    constructor
    · intro hc; exact absurd hc (bytesCompare_zeroHash_not_lt h2 hh)
    · intro hc; omega
  · rw [byteCmp_gt_iff.mpr h]
    simp [Ordering.then]
    omega

/-! ## Claim theorems: store-write failures and range deletion -/

/-- Counterexample to claim C3 as stated: inside `DeleteBloombits` the
per-key `db.Delete(it.Key())` discards its error.  With a store whose
deletes all fail, deleting the single in-range key reports the failed
delete result, yet the function's outcome is `ok`, not fatal. -/
theorem c3_delete_error_ignored_cex :
    (DeleteBloombits dbBoom 0 0 1 [bloomBitsKey 0 0 zeroHash] false).outcome
      = WriteOutcome.ok ∧
    (DeleteBloombits dbBoom 0 0 1 [bloomBitsKey 0 0 zeroHash] false).deleteResults
      = [true] := by
  constructor
  · rfl
  · decide

/-- Claim C3 amended: `writeTxLookupEntry`, `DeleteTxLookupEntry` and
`WriteBloomBits` are fatal exactly when the store put/delete fails;
`DeleteBloombits` is fatal exactly when the iterator reports an error —
its per-key delete errors are discarded, not escalated. -/
theorem c3_store_failures_amended :
    (∀ (db : KVErr) (hash numberBytes : List Nat),
      (writeTxLookupEntry db hash numberBytes).isFatal
        = db.putErr (txLookupKey hash) numberBytes) ∧
    (∀ (db : KVErr) (hash : List Nat),
      (DeleteTxLookupEntry db hash).isFatal = db.delErr (txLookupKey hash)) ∧
    (∀ (db : KVErr) (bit sec : Nat) (head bits : List Nat),
      (WriteBloomBits db bit sec head bits).isFatal
        = db.putErr (bloomBitsKey bit sec head) bits) ∧
    (∀ (db : KVErr) (bit fromSec toSec : Nat) (it : List (List Nat))
      (itErr : Bool),
      (DeleteBloombits db bit fromSec toSec it itErr).outcome.isFatal = itErr) := by
  refine ⟨?_, ?_, ?_, ?_⟩
  · intro db hash numberBytes
    rw [writeTxLookupEntry]
    cases h : db.putErr (txLookupKey hash) numberBytes <;> rfl
  · intro db hash
    rw [DeleteTxLookupEntry]
    cases h : db.delErr (txLookupKey hash) <;> rfl
  · intro db bit sec head bits
    rw [WriteBloomBits]
    cases h : db.putErr (bloomBitsKey bit sec head) bits <;> rfl
  · intro db bit fromSec toSec it itErr
    cases itErr <;> rfl

/-- Claim C7: `DeleteBloombits(bit, from, to)` deletes exactly the keys
of length `BloomBitsKeyLength` lying lexicographically in
`[key(bit,from,0), key(bit,to,0))` — equivalently, exactly the bloom keys
of that bit with section in `[from, to)`; keys of other lengths inside
the scanned range and every key outside it are left untouched.  The
iterator hypotheses are the contract of `NewIterator(nil, start)`: `it`
lists the store's keys `≥ start` in ascending order. -/
theorem c7_delete_range (bit fromSec toSec : Nat) (db : KVErr) (itErr : Bool)
    (store it : List (List Nat))
    (hfrom : fromSec < 2 ^ 64) (hto : toSec < 2 ^ 64)
    (hsorted : it.Pairwise (fun a b => bytesCompare a b ≠ Ordering.gt))
    (hiter : ∀ k, k ∈ it ↔ k ∈ store ∧
      bytesCompare k (bloomBitsKey bit fromSec zeroHash) ≠ Ordering.lt) :
    (∀ k, k ∈ (DeleteBloombits db bit fromSec toSec it itErr).deleted ↔
      (k ∈ store ∧ k.length = BloomBitsKeyLength ∧
        bytesCompare k (bloomBitsKey bit fromSec zeroHash) ≠ Ordering.lt ∧
        bytesCompare k (bloomBitsKey bit toSec zeroHash) = Ordering.lt)) ∧
    (∀ sec h2, sec < 2 ^ 64 → h2.length = 32 →
      (bloomBitsKey bit sec h2 ∈ (DeleteBloombits db bit fromSec toSec it itErr).deleted ↔
        (bloomBitsKey bit sec h2 ∈ store ∧ fromSec ≤ sec ∧ sec < toSec))) := by
  have hdel : (DeleteBloombits db bit fromSec toSec it itErr).deleted
      = it.filter (fun k =>
          decide (bytesCompare k (bloomBitsKey bit toSec zeroHash) = Ordering.lt) &&
          decide (k.length = BloomBitsKeyLength)) := by
    rw [DeleteBloombits]
    exact deleteLoop_eq_filter _ it hsorted
  have hpart1 : ∀ k, k ∈ (DeleteBloombits db bit fromSec toSec it itErr).deleted ↔
      (k ∈ store ∧ k.length = BloomBitsKeyLength ∧
        bytesCompare k (bloomBitsKey bit fromSec zeroHash) ≠ Ordering.lt ∧
        bytesCompare k (bloomBitsKey bit toSec zeroHash) = Ordering.lt) := by
    intro k
    rw [hdel, List.mem_filter, hiter k]
    simp only [Bool.and_eq_true, decide_eq_true_eq]
    tauto
  refine ⟨hpart1, ?_⟩
  intro sec h2 hsec hh
  rw [hpart1 (bloomBitsKey bit sec h2),
    bloomKey_ge_start_iff bit fromSec sec h2 hfrom hsec hh,
    bloomKey_lt_end_iff bit toSec sec h2 hto hsec hh,
    bloomBitsKey_length bit sec h2 hh]
  tauto

/-- Witness for C7 on the spec's scenario: store with bit-0 keys at
sections 1..5 plus a foreign-length key, `DeleteBloombits(0, 2, 4)`;
instantiated at the section-3 key, which is deleted. -/
theorem c7_delete_range_witness :
    bloomBitsKey 0 3 zeroHash ∈ (DeleteBloombits dbBoom 0 2 4 itW false).deleted ↔
      (bloomBitsKey 0 3 zeroHash ∈ storeW ∧ 2 ≤ 3 ∧ 3 < 4) :=
  (c7_delete_range 0 2 4 dbBoom false storeW itW
    (by decide) (by decide)
    (by decide)
    (by
      intro k
      constructor
      · intro hk
        simp only [itW, List.mem_cons, List.not_mem_nil, or_false] at hk
        rcases hk with rfl | rfl | rfl | rfl | rfl <;>
          exact ⟨by decide, by decide⟩
      · rintro ⟨hk, hge⟩
        simp only [storeW, List.mem_cons, List.not_mem_nil, or_false] at hk
        rcases hk with rfl | rfl | rfl | rfl | rfl | rfl
        · exact absurd hge (by decide)
        all_goals decide)).2 3 zeroHash (by decide) (by decide)

end Quai
